import Mathlib

/-!
Verification of the control-plane subsystem of `serenity-utils`.

The subject code is the token stream generated by the `ipc` proc macro in
`src/crate/serenity-utils-derive/src/lib.rs` (the functions `handle_client`,
`listen` and `send` it emits), together with `RwFuture` in
`src/crate/serenity-utils/src/lib.rs`.  The tokenizer used by that code is
the `shlex` crate (functions `shlex::split` and `shlex::quote`), embedded
here byte for byte from its source; since the only bytes the algorithm
treats specially are ASCII, and the bytes of a multi-byte UTF-8 character
are all `≥ 0x80`, working over `List Char` instead of byte lists is
behaviour-preserving for valid UTF-8 input.

Lines of text and tokens are represented as `List Char`.
-/

set_option maxHeartbeats 1000000
set_option maxRecDepth 2000

namespace SerenityUtils

/-! ## Character constants -/
/-- The single-quote character. -/
def squote : Char := Char.ofNat 39

/-- The backtick character. -/
def btick : Char := Char.ofNat 96

/-- The double-quote character. -/
def dquote : Char := '"'

/-- The backslash character. -/
def bslash : Char := '\\'

/-- The newline character. -/
def nl : Char := '\n'

/-! ## Tokenizer (`shlex` crate)

`Shlex` is a byte iterator with methods `parse_word`, `parse_double_quoted`
and `parse_single_quoted`; each function below embeds one of them, with the
not-yet-consumed part of the input passed and returned explicitly (the
source consumes from a shared iterator).  `had_error` is represented by
returning `none`. -/
/-- Embeds `Shlex::parse_single_quoted`: consume characters until the
closing single quote, returning the quoted content and the rest of the
input, or `none` (`had_error`) if the input ends first. -/
def parseSingle : List Char → Option (List Char × List Char)
  | [] => none
  | c :: rest =>
    if c = squote then some ([], rest)
    else
      match parseSingle rest with
      | none => none
      | some (w, r) => some (c :: w, r)

/-- Embeds `Shlex::parse_double_quoted`: consume characters until the
closing double quote.  A backslash followed by `$`, a backtick, `"` or `\`
yields that character; a backslash followed by a newline yields nothing;
any other backslash pair is kept verbatim.  `none` if the input ends before
the closing quote. -/
def parseDouble : List Char → Option (List Char × List Char)
  | [] => none
  | c :: rest =>
    if c = bslash then
      match rest with
      | [] => none
      | c2 :: rest2 =>
        match parseDouble rest2 with
        | none => none
        | some (w, r) =>
          if c2 = '$' ∨ c2 = btick ∨ c2 = dquote ∨ c2 = bslash then some (c2 :: w, r)
          else if c2 = nl then some (w, r)
          else some (bslash :: c2 :: w, r)
    else if c = dquote then some ([], rest)
    else
      match parseDouble rest with
      | none => none
      | some (w, r) => some (c :: w, r)

/-- Whitespace in the sense of the `shlex` word loop (space, tab, newline). -/
def isShWs (c : Char) : Bool := c = ' ' || c = '\t' || c = nl

/-- Fuelled worker for `parseWord` below.  The `fuel` argument exists only
to present the recursion structurally to Lean; `parseWordF_irrel` shows the
result does not depend on it once it exceeds the input length, and
`parseWord_eq` recovers the source-shaped recursion. -/
def parseWordF : Nat → Char → List Char → Option (List Char × List Char)
  | 0 => fun _ _ => none
  | fuel + 1 => fun ch rest =>
    if ch = dquote then
      match parseDouble rest with
      | none => none
      | some (w, r) =>
        match r with
        | [] => some (w, [])
        | c :: r2 => (parseWordF fuel c r2).map (fun q => (w ++ q.1, q.2))
    else if ch = squote then
      match parseSingle rest with
      | none => none
      | some (w, r) =>
        match r with
        | [] => some (w, [])
        | c :: r2 => (parseWordF fuel c r2).map (fun q => (w ++ q.1, q.2))
    else if ch = bslash then
      match rest with
      | [] => none
      | c2 :: r =>
        match r with
        | [] => some (if c2 = nl then [] else [c2], [])
        | c3 :: r3 => (parseWordF fuel c3 r3).map (fun q => ((if c2 = nl then [] else [c2]) ++ q.1, q.2))
    else if isShWs ch then some ([], rest)
    else
      match rest with
      | [] => some ([ch], [])
      | c2 :: r2 => (parseWordF fuel c2 r2).map (fun q => (ch :: q.1, q.2))

/-- Embeds `Shlex::parse_word`: `ch` is the character already consumed by
the caller, `rest` the remaining input.  A double quote enters
`parse_double_quoted`, a single quote `parse_single_quoted`, a backslash
escapes the next character (dropping an escaped newline), bare whitespace
ends the word (the whitespace character having been consumed), anything
else is part of the word; after each piece the word continues with the
next character, and ends when the input does.  `parseWord_eq` states the
recursion in exactly that shape. -/
def parseWord (ch : Char) (rest : List Char) : Option (List Char × List Char) :=
  parseWordF (rest.length + 1) ch rest

/-- Embeds the comment arm of the `Iterator::next` skip loop of `Shlex`:
after a `#`, characters are consumed up to and including the next newline
(or to the end of the input). -/
def dropComment : List Char → List Char
  | [] => []
  | c :: rest => if c = nl then rest else dropComment rest

/-- Fuelled worker for `skipWs` (the whitespace-and-comment skip loop at
the start of `Shlex`'s `Iterator::next`). -/
def skipWsF : Nat → List Char → List Char
  | 0 => fun l => l
  | fuel + 1 => fun l =>
    match l with
    | [] => []
    | c :: rest =>
      if isShWs c then skipWsF fuel rest
      else if c = '#' then skipWsF fuel (dropComment rest)
      else c :: rest

/-- The whitespace-and-comment skip loop at the start of `Shlex`'s
`Iterator::next`: skips space, tab and newline, and skips `#` comments up
to and including their terminating newline, returning the rest of the
input (whose first character, if any, starts a word). -/
def skipWs (l : List Char) : List Char := skipWsF (l.length + 1) l

/-- Fuelled worker for `splitLoop`: the `collect` over the `Shlex`
iterator performed by `shlex::split`.  Each iteration skips whitespace and
comments and, if input remains, parses one word. -/
def splitLoopF : Nat → List Char → Option (List (List Char))
  | 0 => fun _ => none
  | fuel + 1 => fun l =>
    match skipWs l with
    | [] => some []
    | c :: rest =>
      match parseWord c rest with
      | none => none
      | some (w, r) => (splitLoopF fuel r).map (fun ws => w :: ws)

/-- Embeds `shlex::split`: tokenize a whole text buffer into shell words;
`none` when the lexer signals `had_error` (an unterminated quote or a
trailing lone backslash).  An empty or all-whitespace buffer yields
`some []`. -/
def split (l : List Char) : Option (List (List Char)) := splitLoopF (l.length + 1) l

/-! ## Quoting (`shlex::quote`) -/
/-- The characters `shlex::quote` treats as requiring quoting (its
`needs_quoting` byte set). -/
def isSpecial (c : Char) : Bool :=
  c = '|' || c = '&' || c = ';' || c = '<' || c = '>' || c = '(' || c = ')' ||
  c = '$' || c = btick || c = bslash || c = dquote || c = squote ||
  c = ' ' || c = '\t' || c = '\r' || c = nl ||
  c = '*' || c = '?' || c = '[' || c = '#' || c = '~' || c = '=' || c = '%'

/-- One character of `in_str.replace('\\', "\\\\").replace('"', "\\\"")`:
the two sequential single-character replacements performed by
`shlex::quote` amount to this character-wise map, since the text inserted
by the first replacement contains no `"` and the backslashes inserted by
the second are not rewritten again. -/
def escapeChar (c : Char) : List Char :=
  if c = bslash then [bslash, bslash]
  else if c = dquote then [bslash, dquote]
  else [c]

/-- `in_str.replace('\\', "\\\\").replace('"', "\\\"")` over a whole string. -/
def escape : List Char → List Char
  | [] => []
  | c :: rest => escapeChar c ++ escape rest

/-- Embeds `shlex::quote`: the empty string becomes `""`; a string with a
byte in the special set is wrapped in double quotes with backslashes and
double quotes escaped; anything else is passed through unchanged. -/
def quote (l : List Char) : List Char :=
  if l = [] then [dquote, dquote]
  else if l.any isSpecial then dquote :: (escape l ++ [dquote])
  else l

/-- `cmd.into_iter().map(quote).collect::<Vec<_>>().join(" ")` as performed
by the generated `send`. -/
def joinSpace : List (List Char) → List Char
  | [] => []
  | [t] => t
  | t :: ts => t ++ ' ' :: joinSpace ts

/-! ## The generated IPC server and client

The `ipc` proc macro (`src/crate/serenity-utils-derive/src/lib.rs`)
generates, for a list of command functions, the server functions
`handle_client` and `listen` and the client function `send`.  The macro's
per-command expansion (`match &args[0][..] { "cmd-name" => ..., _ =>
return Err(Error::UnknownCommand(args)) }`) is embedded by a runtime
registry: one `Command` per generated match arm, tried in order by exact
name match.  I/O errors are represented by an opaque `Nat` code; writes of
reply lines are collected into a list (the model does not fail writes).
Indexing `args[i]` out of bounds in the generated code is a Rust panic;
the model represents a panic as an explicit outcome. -/
/-- One generated dispatch arm: the kebab-case wire name (the command
function's identifier with `_` replaced by `-`), one argument parser per
declared parameter embedding `args[i].parse::<T>().map_err(|e|
Error::ArgParse(e.to_string()))` (`Except.error` carries the rendered
message), and the handler embedding the command function applied to the
context and the parsed arguments (given here the raw argument strings that
just parsed; `Except.error msg` is a handler failure whose rendering
becomes the reply line). -/
structure Command where
  name : List Char
  parsers : List (List Char → Except (List Char) Unit)
  handler : List (List Char) → Except (List Char) Unit

/-- Outcome of evaluating the parse sequence `args[1].parse::<T1>()?,
args[2].parse::<T2>()?, ...` left to right: an out-of-bounds index is a
panic, the first failing parse is an `ArgParse` error, otherwise all
arguments parsed. -/
inductive ParseOutcome where
  | panicked
  | failed (msg : List Char)
  | parsed
deriving DecidableEq

def runParsers : List (List Char → Except (List Char) Unit) → List (List Char) → ParseOutcome
  | [], _ => .parsed
  | _ :: _, [] => .panicked
  | p :: ps, a :: rest =>
    match p a with
    | .error m => .failed m
    | .ok _ => runParsers ps rest

/-- Result of the generated `match &args[0][..] { ... }` dispatch block:
a reply line written back (the command's own name on success, the
handler's rendered error otherwise), an `ArgParse` error returned with
`?`, `UnknownCommand(args)` returned from the catch-all arm, or a panic
from indexing `args` out of bounds (`args[0]` on an empty token list, or
a missing argument). -/
inductive DispatchResult where
  | reply (line : List Char)
  | argParse (msg : List Char)
  | unknown (args : List (List Char))
  | panicked
deriving DecidableEq

def dispatch (reg : List Command) : List (List Char) → DispatchResult
  | [] => .panicked
  | cmdName :: rest =>
    match reg.find? (fun c => c.name == cmdName) with
    | none => .unknown (cmdName :: rest)
    | some c =>
      match runParsers c.parsers rest with
      | .panicked => .panicked
      | .failed m => .argParse m
      | .parsed =>
        match c.handler (rest.take c.parsers.length) with
        | .ok _ => .reply c.name
        | .error m => .reply m

/-- One observation of `lines.next().await` in `handle_client`: a line of
text (without its newline), an `io::ErrorKind::ConnectionReset` error, or
any other I/O error. -/
inductive LineEvent where
  | line (text : List Char)
  | reset
  | ioError (e : Nat)
deriving DecidableEq

/-- The value `handle_client` terminates with: `ok` for `Ok(())`, the
other constructors for the respective `Err(Error::...)` values, and
`panicked` for a Rust panic (which does not return at all). -/
inductive ConnResult where
  | ok
  | shlexError (line : List Char)
  | ioError (e : Nat)
  | unknownCommand (args : List (List Char))
  | argParse (msg : List Char)
  | panicked
deriving DecidableEq

/-- The `last_error` variable of `handle_client`: `none` for `Ok(())`,
`some line` for `Err(Error::Shlex(line))`. -/
def lastErrResult : Option (List Char) → ConnResult
  | none => .ok
  | some line => .shlexError line

/-- Embeds the `while let Some(line) = lines.next().await` loop of the
generated `handle_client`, with the mutable state `buf` and `last_error`
passed explicitly and the reply lines written to the socket collected in
order.  A read error that is `ConnectionReset` breaks out of the loop
(returning `last_error`); any other read error returns `Err(Error::Io)`.
Otherwise the line is appended to `buf` and the buffer tokenized:
tokenize failure records `Err(Error::Shlex(line))` in `last_error`, keeps
the buffer and pushes a newline; success resets `last_error` to `Ok(())`,
clears the buffer and dispatches.  At the end of the stream `last_error`
is returned. -/
def handleClient (reg : List Command) : List LineEvent → List Char → Option (List Char) →
    ConnResult × List (List Char)
  | [] => fun _ le => (lastErrResult le, [])
  | ev :: es => fun buf le =>
    match ev with
    | .reset => (lastErrResult le, [])
    | .ioError e => (.ioError e, [])
    | .line s =>
      match split (buf ++ s) with
      | none => handleClient reg es (buf ++ s ++ [nl]) (some s)
      | some args =>
        match dispatch reg args with
        | .panicked => (.panicked, [])
        | .argParse m => (.argParse m, [])
        | .unknown a => (.unknownCommand a, [])
        | .reply r =>
          match handleClient reg es [] none with
          | (res, rs) => (res, r :: rs)

/-- One observation of `listener.next().await` in `listen`: an accepted
connection (with the line events its handler will observe) or an accept
error. -/
inductive AcceptEvent where
  | conn (events : List LineEvent)
  | acceptError (e : Nat)

/-- One invocation of the `notify_thread_crash` callback (always labelled
`"IPC client"` in the source): an accept failure or a connection handler
that returned an error. -/
inductive Notif where
  | acceptFailed (e : Nat)
  | connFailed (r : ConnResult)
deriving DecidableEq

/-- Outcome of the listener observed over a finite prefix of accept
events: still accepting (with the notifications made, in order), crashed
by a connection handler panic, or never started because binding failed. -/
inductive ListenOutcome where
  | bindFailed (e : Nat)
  | panicked (notifs : List Notif)
  | running (notifs : List Notif)
deriving DecidableEq

def consNotif (n : Notif) : ListenOutcome → ListenOutcome
  | .bindFailed e => .bindFailed e
  | .panicked ns => .panicked (n :: ns)
  | .running ns => .running (n :: ns)

/-- Embeds the accept loop of the generated `listen`: an accept error is
reported to `notify_thread_crash` and the loop continues; an accepted
connection is handled by `handle_client`, whose error result (if any) is
reported to `notify_thread_crash`, and the loop continues.  A panic
inside `handle_client` propagates (the handler is awaited directly, not
spawned). -/
def listenLoop (reg : List Command) : List AcceptEvent → ListenOutcome
  | [] => .running []
  | ev :: evts =>
    match ev with
    | .acceptError e => consNotif (.acceptFailed e) (listenLoop reg evts)
    | .conn ls =>
      match (handleClient reg ls [] none).1 with
      | .ok => listenLoop reg evts
      | .panicked => .panicked []
      | r => consNotif (.connFailed r) (listenLoop reg evts)

/-- Embeds the generated `listen`: `TcpListener::bind(addr()).await?`
propagates a bind failure to the caller; otherwise the accept loop runs
(forever — the `unreachable!()` after the loop is never observed, a
finite event list here being a prefix of the infinite accept stream). -/
def listen (reg : List Command) (bindResult : Except Nat Unit) (evts : List AcceptEvent) :
    ListenOutcome :=
  match bindResult with
  | .error e => .bindFailed e
  | .ok _ => listenLoop reg evts

/-! ## Client sender (`send`) -/
/-- The exact line written by the generated `send`:
`writeln!(stream, "{}", cmd.map(quote).join(" "))` — the shell-quoted,
space-joined arguments followed by one newline. -/
def sendRequest (args : List (List Char)) : List Char := joinSpace (args.map quote) ++ [nl]

/-- Embeds `BufReader::read_line` into an empty buffer: reads characters
from the stream up to and including the first newline (or to the end of
the stream). -/
def readLine : List Char → List Char
  | [] => []
  | c :: rest => if c = nl then [c] else c :: readLine rest

/-- Result of the reply-processing half of `send`. -/
inductive SendResult where
  | ok (reply : List Char)
  | missingNewline
deriving DecidableEq

/-- Embeds the reply handling of the generated `send`: after
`read_line(&mut buf)`, `if buf.pop() != Some('\n') { return
Err(Error::MissingNewline) } Ok(buf)` — checks the popped last character
is a newline and returns the rest. -/
def sendReceive (stream : List Char) : SendResult :=
  let buf := readLine stream
  if buf.getLast? = some nl then .ok buf.dropLast else .missingNewline

/-! ## Ready-Cell (`RwFuture`) -/
/-- The state of the cell behind the `RwLock` of an `RwFuture`
(`src/crate/serenity-utils/src/lib.rs`): `Pending` holds the broadcast
sender (represented separately by the `notified` flag of `RwCell`),
`Ready` the produced value. -/
inductive RwFutureData (T : Type) where
  | Pending
  | Ready (value : T)
deriving DecidableEq

/-- Embeds `RwFutureData::unwrap` (and the identical `unwrap_mut`):
`none` models the `panic!("not ready")` branch. -/
def unwrapData {T : Type} : RwFutureData T → Option T
  | .Pending => none
  | .Ready v => some v

/-- The shared state of one `RwFuture` together with its notification
channel: `notified` is whether `tx.send(())` has already happened. -/
structure RwCell (T : Type) where
  data : RwFutureData T
  notified : Bool

/-- The two atomic state changes the producer task spawned by
`RwFuture::new` performs, in order: under the write lock it stores
`Ready(value)`, and only afterwards sends the broadcast notification. -/
inductive RwStep {T : Type} (v : T) : RwCell T → RwCell T → Prop
  | fill : RwStep v ⟨.Pending, false⟩ ⟨.Ready v, false⟩
  | notify : RwStep v ⟨.Ready v, false⟩ ⟨.Ready v, true⟩

/-- States reachable from the state `RwFuture::new` creates
(`Pending`, nothing sent yet) under the producer's steps. -/
inductive RwReachable {T : Type} (v : T) : RwCell T → Prop
  | init : RwReachable v ⟨.Pending, false⟩
  | step {s s'} : RwReachable v s → RwStep v s s' → RwReachable v s'

/-- Embeds `RwFuture::read`: `first` is the cell as seen at the first
check under the read lock, `recheck` the cell as seen after the
suspension (only consulted when the first check saw `Pending`).  Result
`some (suspended, value)`: `suspended` is whether the caller subscribed
and awaited the notification; `none` models reaching a panic — the
`unreachable!("RwFuture should be ready after notification")` branch, or
`unwrap`'s `panic!("not ready")`. -/
def readAccess {T : Type} (first recheck : RwFutureData T) : Option (Bool × T) :=
  match first with
  | .Ready _ => (unwrapData first).map (fun v => (false, v))
  | .Pending =>
    match recheck with
    | .Pending => none
    | .Ready _ => (unwrapData recheck).map (fun v => (true, v))

/-- Embeds `RwFuture::write`, whose logic is identical to `read` with
exclusive instead of shared access (`unwrap_mut` instead of `unwrap`). -/
def writeAccess {T : Type} (first recheck : RwFutureData T) : Option (Bool × T) :=
  match first with
  | .Ready _ => (unwrapData first).map (fun v => (false, v))
  | .Pending =>
    match recheck with
    | .Pending => none
    | .Ready _ => (unwrapData recheck).map (fun v => (true, v))

/-! ## Concrete commands used in witnesses and counterexamples -/
/-- A command `num` with one argument whose parser accepts only the
token `1` (standing for `u8::from_str` style parsing) and rejects
anything else with the offending token as the rendered message. -/
def numParser : List Char → Except (List Char) Unit :=
  fun s => if s = ['1'] then .ok () else .error s

def numCmd : Command := ⟨['n', 'u', 'm'], [numParser], fun _ => .ok ()⟩

/-- A command `echo` with one string argument whose handler always fails
with the received arguments joined as the message, so that the reply line
reveals exactly the arguments the dispatcher passed. -/
def echoProbe : Command :=
  ⟨['e', 'c', 'h', 'o'], [fun _ => .ok ()], fun args => .error args.flatten⟩

/-- The notifications §4.4 of the spec expects over a prefix of accept
events: one per accept failure and one per connection handler that
terminates with an error, in order. -/
def faultsOf (reg : List Command) : List AcceptEvent → List Notif
  | [] => []
  | ev :: evts =>
    match ev with
    | .acceptError e => .acceptFailed e :: faultsOf reg evts
    | .conn ls =>
      match (handleClient reg ls [] none).1 with
      | .ok => faultsOf reg evts
      | r => .connFailed r :: faultsOf reg evts

/-! ## Theorems -/

theorem parseSingle_length : ∀ l p, parseSingle l = some p → p.2.length < l.length := by
  intro l
  induction l with
  | nil => intro p h; simp [parseSingle] at h
  | cons c rest ih =>
    intro p h
    simp only [parseSingle] at h
    split at h
    · cases h; simp
    · cases hr : parseSingle rest with
      | none => rw [hr] at h; cases h
      | some q =>
        rw [hr] at h
        cases h
        have := ih q hr
        simp only [List.length_cons]
        omega

theorem parseDouble_cons (c : Char) (rest : List Char) : parseDouble (c :: rest) =
    if c = bslash then
      match rest with
      | [] => none
      | c2 :: rest2 =>
        match parseDouble rest2 with
        | none => none
        | some (w, r) =>
          if c2 = '$' ∨ c2 = btick ∨ c2 = dquote ∨ c2 = bslash then some (c2 :: w, r)
          else if c2 = nl then some (w, r)
          else some (bslash :: c2 :: w, r)
    else if c = dquote then some ([], rest)
    else
      match parseDouble rest with
      | none => none
      | some (w, r) => some (c :: w, r) := by
  rw [parseDouble.eq_def]

theorem parseDouble_length : ∀ l p, parseDouble l = some p → p.2.length < l.length := by
  have main : ∀ n l p, l.length ≤ n → parseDouble l = some p → p.2.length < l.length := by
    intro n
    induction n with
    | zero =>
      intro l p hl hp
      cases l with
      | nil => simp [parseDouble] at hp
      | cons c rest => simp only [List.length_cons] at hl; omega
    | succ n ih =>
      intro l p hl hp
      cases l with
      | nil => simp [parseDouble] at hp
      | cons c rest =>
        rw [parseDouble_cons] at hp
        simp only [List.length_cons] at hl
        by_cases hb : c = bslash
        · rw [if_pos hb] at hp
          cases rest with
          | nil => simp at hp
          | cons c2 rest2 =>
            dsimp only at hp
            cases hr : parseDouble rest2 with
            | none => rw [hr] at hp; simp at hp
            | some q =>
              rw [hr] at hp
              have hq : q.2.length < rest2.length := by
                apply ih rest2 q _ hr
                simp only [List.length_cons] at hl
                omega
              obtain ⟨w, r⟩ := q
              dsimp only at hp
              split_ifs at hp <;>
                (cases hp; simp only [List.length_cons] at hq ⊢; omega)
        · rw [if_neg hb] at hp
          by_cases hd : c = dquote
          · rw [if_pos hd] at hp
            cases hp
            simp
          · rw [if_neg hd] at hp
            cases hr : parseDouble rest with
            | none => rw [hr] at hp; simp at hp
            | some q =>
              rw [hr] at hp
              obtain ⟨w, r⟩ := q
              dsimp only at hp
              cases hp
              have hq : r.length < rest.length := by
                have := ih rest ⟨w, r⟩ (by omega) hr
                simpa using this
              simp only [List.length_cons]
              omega
  intro l p
  exact main l.length l p (Nat.le_refl _)

theorem parseWordF_succ (fuel : Nat) (ch : Char) (rest : List Char) :
    parseWordF (fuel + 1) ch rest =
    if ch = dquote then
      match parseDouble rest with
      | none => none
      | some (w, r) =>
        match r with
        | [] => some (w, [])
        | c :: r2 => (parseWordF fuel c r2).map (fun q => (w ++ q.1, q.2))
    else if ch = squote then
      match parseSingle rest with
      | none => none
      | some (w, r) =>
        match r with
        | [] => some (w, [])
        | c :: r2 => (parseWordF fuel c r2).map (fun q => (w ++ q.1, q.2))
    else if ch = bslash then
      match rest with
      | [] => none
      | c2 :: r =>
        match r with
        | [] => some (if c2 = nl then [] else [c2], [])
        | c3 :: r3 => (parseWordF fuel c3 r3).map (fun q => ((if c2 = nl then [] else [c2]) ++ q.1, q.2))
    else if isShWs ch then some ([], rest)
    else
      match rest with
      | [] => some ([ch], [])
      | c2 :: r2 => (parseWordF fuel c2 r2).map (fun q => (ch :: q.1, q.2)) := rfl

theorem parseWordF_length : ∀ fuel ch rest p, parseWordF fuel ch rest = some p →
    p.2.length ≤ rest.length := by
  intro fuel
  induction fuel with
  | zero => intro ch rest p hp; simp [parseWordF] at hp
  | succ fuel ih =>
    intro ch rest p hp
    rw [parseWordF_succ] at hp
    by_cases h1 : ch = dquote
    · rw [if_pos h1] at hp
      cases hd : parseDouble rest with
      | none => rw [hd] at hp; cases hp
      | some q =>
        rw [hd] at hp
        obtain ⟨w, r⟩ := q
        have hrl : r.length < rest.length := by
          have := parseDouble_length _ _ hd; simpa using this
        dsimp only at hp
        cases r with
        | nil => cases hp; simp
        | cons c r2 =>
          dsimp only at hp
          cases hw : parseWordF fuel c r2 with
          | none => rw [hw] at hp; simp at hp
          | some q2 =>
            rw [hw] at hp
            simp only [Option.map] at hp
            cases hp
            have := ih c r2 q2 hw
            simp only [List.length_cons] at hrl ⊢
            omega
    rw [if_neg h1] at hp
    by_cases h2 : ch = squote
    · rw [if_pos h2] at hp
      cases hd : parseSingle rest with
      | none => rw [hd] at hp; cases hp
      | some q =>
        rw [hd] at hp
        obtain ⟨w, r⟩ := q
        have hrl : r.length < rest.length := by
          have := parseSingle_length _ _ hd; simpa using this
        dsimp only at hp
        cases r with
        | nil => cases hp; simp
        | cons c r2 =>
          dsimp only at hp
          cases hw : parseWordF fuel c r2 with
          | none => rw [hw] at hp; simp at hp
          | some q2 =>
            rw [hw] at hp
            simp only [Option.map] at hp
            cases hp
            have := ih c r2 q2 hw
            simp only [List.length_cons] at hrl ⊢
            omega
    rw [if_neg h2] at hp
    by_cases h3 : ch = bslash
    · rw [if_pos h3] at hp
      cases rest with
      | nil => cases hp
      | cons c2 r =>
        dsimp only at hp
        cases r with
        | nil => cases hp; simp
        | cons c3 r3 =>
          dsimp only at hp
          cases hw : parseWordF fuel c3 r3 with
          | none => rw [hw] at hp; simp at hp
          | some q2 =>
            rw [hw] at hp
            simp only [Option.map] at hp
            cases hp
            have := ih c3 r3 q2 hw
            simp only [List.length_cons]
            omega
    rw [if_neg h3] at hp
    by_cases h4 : isShWs ch
    · rw [if_pos h4] at hp
      cases hp
      simp
    · rw [if_neg h4] at hp
      cases rest with
      | nil => cases hp; simp
      | cons c2 r2 =>
        dsimp only at hp
        cases hw : parseWordF fuel c2 r2 with
        | none => rw [hw] at hp; simp at hp
        | some q2 =>
          rw [hw] at hp
          simp only [Option.map] at hp
          cases hp
          have := ih c2 r2 q2 hw
          simp only [List.length_cons]
          omega

theorem parseWordF_irrel : ∀ fuel gfuel ch rest, rest.length < fuel → rest.length < gfuel →
    parseWordF fuel ch rest = parseWordF gfuel ch rest := by
  intro fuel
  induction fuel with
  | zero => intro gfuel ch rest hf; omega
  | succ f ih =>
    intro gfuel ch rest hf hg
    match gfuel with
    | 0 => omega
    | g + 1 =>
      rw [parseWordF_succ, parseWordF_succ]
      by_cases h1 : ch = dquote
      · simp only [if_pos h1]
        cases hd : parseDouble rest with
        | none => rfl
        | some q =>
          obtain ⟨w, r⟩ := q
          have hrl : r.length < rest.length := by
            have := parseDouble_length _ _ hd; simpa using this
          dsimp only
          cases r with
          | nil => rfl
          | cons c r2 =>
            have : parseWordF f c r2 = parseWordF g c r2 := by
              apply ih
              · simp only [List.length_cons] at hrl; omega
              · simp only [List.length_cons] at hrl; omega
            dsimp only
            rw [this]
      simp only [if_neg h1]
      by_cases h2 : ch = squote
      · simp only [if_pos h2]
        cases hd : parseSingle rest with
        | none => rfl
        | some q =>
          obtain ⟨w, r⟩ := q
          have hrl : r.length < rest.length := by
            have := parseSingle_length _ _ hd; simpa using this
          dsimp only
          cases r with
          | nil => rfl
          | cons c r2 =>
            have : parseWordF f c r2 = parseWordF g c r2 := by
              apply ih
              · simp only [List.length_cons] at hrl; omega
              · simp only [List.length_cons] at hrl; omega
            dsimp only
            rw [this]
      simp only [if_neg h2]
      by_cases h3 : ch = bslash
      · simp only [if_pos h3]
        cases rest with
        | nil => rfl
        | cons c2 r =>
          dsimp only
          cases r with
          | nil => rfl
          | cons c3 r3 =>
            have : parseWordF f c3 r3 = parseWordF g c3 r3 := by
              apply ih
              · simp only [List.length_cons] at hf; omega
              · simp only [List.length_cons] at hg; omega
            dsimp only
            rw [this]
      simp only [if_neg h3]
      by_cases h4 : isShWs ch
      · simp only [if_pos h4]
      · simp only [if_neg h4]
        cases rest with
        | nil => rfl
        | cons c2 r2 =>
          dsimp only
          have : parseWordF f c2 r2 = parseWordF g c2 r2 := by
            apply ih
            · simp only [List.length_cons] at hf; omega
            · simp only [List.length_cons] at hg; omega
          rw [this]

theorem parseWord_length : ∀ ch rest p, parseWord ch rest = some p → p.2.length ≤ rest.length :=
  fun ch rest p hp => parseWordF_length _ ch rest p hp

theorem parseWordF_toWord : ∀ fuel ch rest, rest.length < fuel →
    parseWordF fuel ch rest = parseWord ch rest := by
  intro fuel ch rest hf
  exact parseWordF_irrel fuel (rest.length + 1) ch rest hf (Nat.lt_succ_self _)

theorem dropComment_length : ∀ l, (dropComment l).length ≤ l.length := by
  intro l
  induction l with
  | nil => simp [dropComment]
  | cons c rest ih =>
    rw [show dropComment (c :: rest) = if c = nl then rest else dropComment rest from rfl]
    split
    · simp
    · simp only [List.length_cons]; omega

theorem skipWsF_succ (fuel : Nat) (l : List Char) : skipWsF (fuel + 1) l =
    match l with
    | [] => []
    | c :: rest =>
      if isShWs c then skipWsF fuel rest
      else if c = '#' then skipWsF fuel (dropComment rest)
      else c :: rest := rfl

theorem skipWsF_irrel : ∀ fuel gfuel l, l.length < fuel → l.length < gfuel →
    skipWsF fuel l = skipWsF gfuel l := by
  intro fuel
  induction fuel with
  | zero => intro gfuel l hf; omega
  | succ f ih =>
    intro gfuel l hf hg
    match gfuel with
    | 0 => omega
    | g + 1 =>
      rw [skipWsF_succ, skipWsF_succ]
      cases l with
      | nil => rfl
      | cons c rest =>
        dsimp only
        simp only [List.length_cons] at hf hg
        by_cases h1 : isShWs c
        · simp only [if_pos h1]
          exact ih g rest (by omega) (by omega)
        simp only [if_neg h1]
        by_cases h2 : c = '#'
        · simp only [if_pos h2]
          have := dropComment_length rest
          exact ih g (dropComment rest) (by omega) (by omega)
        · simp only [if_neg h2]

theorem skipWsF_length : ∀ fuel l, (skipWsF fuel l).length ≤ l.length := by
  intro fuel
  induction fuel with
  | zero => intro l; simp [skipWsF]
  | succ f ih =>
    intro l
    cases l with
    | nil => simp [skipWsF]
    | cons c rest =>
      rw [skipWsF_succ]
      dsimp only
      split
      · have := ih rest; simp only [List.length_cons]; omega
      split
      · have h1 := ih (dropComment rest)
        have h2 := dropComment_length rest
        simp only [List.length_cons]
        omega
      · simp

theorem skipWs_length : ∀ l, (skipWs l).length ≤ l.length :=
  fun l => skipWsF_length _ l

theorem skipWs_nil : skipWs [] = [] := rfl

theorem skipWs_cons (c : Char) (rest : List Char) : skipWs (c :: rest) =
    if isShWs c then skipWs rest
    else if c = '#' then skipWs (dropComment rest)
    else c :: rest := by
  rw [show skipWs (c :: rest) =
      (if isShWs c then skipWsF (rest.length + 1) rest
      else if c = '#' then skipWsF (rest.length + 1) (dropComment rest)
      else c :: rest) from rfl]
  split
  · rfl
  split
  · exact skipWsF_irrel _ _ _ (by have := dropComment_length rest; omega) (Nat.lt_succ_self _)
  · rfl

theorem splitLoopF_succ (fuel : Nat) (l : List Char) : splitLoopF (fuel + 1) l =
    match skipWs l with
    | [] => some []
    | c :: rest =>
      match parseWord c rest with
      | none => none
      | some (w, r) => (splitLoopF fuel r).map (fun ws => w :: ws) := rfl

theorem splitLoopF_irrel : ∀ fuel gfuel l, l.length < fuel → l.length < gfuel →
    splitLoopF fuel l = splitLoopF gfuel l := by
  intro fuel
  induction fuel with
  | zero => intro gfuel l hf; omega
  | succ f ih =>
    intro gfuel l hf hg
    match gfuel with
    | 0 => omega
    | g + 1 =>
      rw [splitLoopF_succ, splitLoopF_succ]
      cases hs : skipWs l with
      | nil => rfl
      | cons c rest =>
        dsimp only
        have hsl : rest.length < l.length := by
          have := skipWs_length l
          rw [hs] at this
          simp only [List.length_cons] at this
          omega
        cases hw : parseWord c rest with
        | none => rfl
        | some q =>
          obtain ⟨w, r⟩ := q
          have hr : r.length ≤ rest.length := parseWord_length _ _ _ hw
          dsimp only
          rw [ih g r (by omega) (by omega)]

theorem splitLoopF_toSplit : ∀ fuel l, l.length < fuel → splitLoopF fuel l = split l := by
  intro fuel l hf
  exact splitLoopF_irrel fuel (l.length + 1) l hf (Nat.lt_succ_self _)

theorem split_eq (l : List Char) : split l =
    match skipWs l with
    | [] => some []
    | c :: rest =>
      match parseWord c rest with
      | none => none
      | some (w, r) => (split r).map (fun ws => w :: ws) := by
  rw [show split l = splitLoopF (l.length + 1) l from rfl, splitLoopF_succ]
  cases hs : skipWs l with
  | nil => rfl
  | cons c rest =>
    dsimp only
    have hsl : rest.length < l.length := by
      have := skipWs_length l
      rw [hs] at this
      simp only [List.length_cons] at this
      omega
    cases hw : parseWord c rest with
    | none => rfl
    | some q =>
      obtain ⟨w, r⟩ := q
      have hr : r.length ≤ rest.length := parseWord_length _ _ _ hw
      dsimp only
      rw [splitLoopF_toSplit l.length r (by omega)]

example : split [] = some [] := by decide

example : split [' ', ' '] = some [] := by decide

example : split ['a', 'b', ' ', 'c'] = some [['a', 'b'], ['c']] := by decide

example : split ['e', 'c', 'h', 'o', ' ', squote, 'h', 'i'] = none := by decide

example : split ['e', 'c', 'h', 'o', ' ', squote, 'h', 'i', nl, 'y', squote]
    = some [['e', 'c', 'h', 'o'], ['h', 'i', nl, 'y']] := by decide

example : split ['a', dquote, 'b', ' ', 'c', dquote, 'd'] = some [['a', 'b', ' ', 'c', 'd']] := by
  decide

example : split ['#', 'x', ' ', 'y'] = some [] := by decide

example : split ['a', ' ', '#', 'x', nl, 'b'] = some [['a'], ['b']] := by decide

example : split [bslash, nl, 'a'] = some [['a']] := by decide

example : split ['a', bslash] = none := by decide

example : quote [] = [dquote, dquote] := by decide

example : quote ['a', 'b'] = ['a', 'b'] := by decide

example : quote ['a', ' ', 'b'] = [dquote, 'a', ' ', 'b', dquote] := by decide

example : quote ['a', bslash, dquote] = [dquote, 'a', bslash, bslash, bslash, dquote, dquote] := by
  decide

example : split (joinSpace [quote ['a', ' ', 'b'], quote [], quote ['c']])
    = some [['a', ' ', 'b'], [], ['c']] := by decide

/-! ## Round-trip lemmas -/
theorem parseWord_eq (ch : Char) (rest : List Char) : parseWord ch rest =
    if ch = dquote then
      match parseDouble rest with
      | none => none
      | some (w, r) =>
        match r with
        | [] => some (w, [])
        | c :: r2 => (parseWord c r2).map (fun q => (w ++ q.1, q.2))
    else if ch = squote then
      match parseSingle rest with
      | none => none
      | some (w, r) =>
        match r with
        | [] => some (w, [])
        | c :: r2 => (parseWord c r2).map (fun q => (w ++ q.1, q.2))
    else if ch = bslash then
      match rest with
      | [] => none
      | c2 :: r =>
        match r with
        | [] => some (if c2 = nl then [] else [c2], [])
        | c3 :: r3 => (parseWord c3 r3).map (fun q => ((if c2 = nl then [] else [c2]) ++ q.1, q.2))
    else if isShWs ch then some ([], rest)
    else
      match rest with
      | [] => some ([ch], [])
      | c2 :: r2 => (parseWord c2 r2).map (fun q => (ch :: q.1, q.2)) := by
  rw [show parseWord ch rest = parseWordF (rest.length + 1) ch rest from rfl, parseWordF_succ]
  by_cases h1 : ch = dquote
  · simp only [if_pos h1]
    cases hd : parseDouble rest with
    | none => rfl
    | some q =>
      obtain ⟨w, r⟩ := q
      have hrl : r.length < rest.length := by
        have := parseDouble_length _ _ hd; simpa using this
      dsimp only
      cases r with
      | nil => rfl
      | cons c r2 =>
        dsimp only
        rw [parseWordF_toWord rest.length c r2
          (by simp only [List.length_cons] at hrl; omega)]
  simp only [if_neg h1]
  by_cases h2 : ch = squote
  · simp only [if_pos h2]
    cases hd : parseSingle rest with
    | none => rfl
    | some q =>
      obtain ⟨w, r⟩ := q
      have hrl : r.length < rest.length := by
        have := parseSingle_length _ _ hd; simpa using this
      dsimp only
      cases r with
      | nil => rfl
      | cons c r2 =>
        dsimp only
        rw [parseWordF_toWord rest.length c r2
          (by simp only [List.length_cons] at hrl; omega)]
  simp only [if_neg h2]
  by_cases h3 : ch = bslash
  · simp only [if_pos h3]
    cases rest with
    | nil => rfl
    | cons c2 r =>
      dsimp only
      cases r with
      | nil => rfl
      | cons c3 r3 =>
        dsimp only
        rw [parseWordF_toWord (c2 :: c3 :: r3).length c3 r3 (by simp only [List.length_cons]; omega)]
  simp only [if_neg h3]
  by_cases h4 : isShWs ch
  · simp only [if_pos h4]
  · simp only [if_neg h4]
    cases rest with
    | nil => rfl
    | cons c2 r2 =>
      dsimp only
      rw [parseWordF_toWord (c2 :: r2).length c2 r2 (by simp)]

theorem nonspecial_facts (c : Char) (h : ¬ (isSpecial c = true)) :
    c ≠ dquote ∧ c ≠ squote ∧ c ≠ bslash ∧ isShWs c = false ∧ c ≠ '#' := by
  refine ⟨?_, ?_, ?_, ?_, ?_⟩
  · intro he; subst he; exact h (by decide)
  · intro he; subst he; exact h (by decide)
  · intro he; subst he; exact h (by decide)
  · cases hw : isShWs c with
    | false => rfl
    | true =>
      exfalso
      apply h
      simp only [isShWs, Bool.or_eq_true, decide_eq_true_eq] at hw
      rcases hw with (he | he) | he <;> subst he <;> decide
  · intro he; subst he; exact h (by decide)

theorem parseDouble_escape : ∀ t rest, parseDouble (escape t ++ dquote :: rest) = some (t, rest) := by
  intro t
  induction t with
  | nil =>
    intro rest
    rw [show escape [] ++ dquote :: rest = dquote :: rest from rfl, parseDouble_cons]
    rw [if_neg (by decide : ¬ dquote = bslash), if_pos rfl]
  | cons c t' ih =>
    intro rest
    by_cases hb : c = bslash
    · subst hb
      rw [show escape (bslash :: t') ++ dquote :: rest
          = bslash :: bslash :: (escape t' ++ dquote :: rest) from rfl, parseDouble_cons]
      rw [if_pos rfl]
      dsimp only
      rw [ih rest]
      dsimp only
      rw [if_pos (by simp : bslash = '$' ∨ bslash = btick ∨ bslash = dquote ∨ bslash = bslash)]
    · by_cases hd : c = dquote
      · subst hd
        rw [show escape (dquote :: t') ++ dquote :: rest
            = bslash :: dquote :: (escape t' ++ dquote :: rest) from rfl, parseDouble_cons]
        rw [if_pos rfl]
        dsimp only
        rw [ih rest]
        dsimp only
        rw [if_pos (by simp : dquote = '$' ∨ dquote = btick ∨ dquote = dquote ∨ dquote = bslash)]
      · rw [show escape (c :: t') ++ dquote :: rest
            = escapeChar c ++ (escape t' ++ dquote :: rest) from by simp [escape],
          show escapeChar c = [c] from by simp [escapeChar, hb, hd],
          List.singleton_append, parseDouble_cons]
        rw [if_neg hb, if_neg hd, ih rest]

theorem parseWord_sp (tail : List Char) : parseWord ' ' tail = some ([], tail) := by
  rw [parseWord_eq]
  rw [if_neg (by decide : ¬ (' ' = dquote)), if_neg (by decide : ¬ (' ' = squote)),
    if_neg (by decide : ¬ (' ' = bslash)), if_pos (by decide : isShWs ' ' = true)]

theorem parseWord_quoted_nil (t : List Char) :
    parseWord dquote (escape t ++ [dquote]) = some (t, []) := by
  rw [parseWord_eq, if_pos rfl,
    show escape t ++ [dquote] = escape t ++ dquote :: [] from rfl, parseDouble_escape]

theorem parseWord_quoted_sp (t tail : List Char) :
    parseWord dquote (escape t ++ dquote :: ' ' :: tail) = some (t, tail) := by
  rw [parseWord_eq, if_pos rfl, parseDouble_escape]
  dsimp only
  rw [parseWord_sp]
  simp

theorem parseWord_plain_nil : ∀ t c, ¬ (isSpecial c = true) → (∀ x ∈ t, ¬ (isSpecial x = true)) →
    parseWord c t = some (c :: t, []) := by
  intro t
  induction t with
  | nil =>
    intro c hc _
    obtain ⟨h1, h2, h3, h4, _⟩ := nonspecial_facts c hc
    rw [parseWord_eq, if_neg h1, if_neg h2, if_neg h3, if_neg (by simp [h4])]
  | cons d t' ih =>
    intro c hc ht
    obtain ⟨h1, h2, h3, h4, _⟩ := nonspecial_facts c hc
    rw [parseWord_eq, if_neg h1, if_neg h2, if_neg h3, if_neg (by simp [h4])]
    dsimp only
    rw [ih d (ht d (by simp)) (fun x hx => ht x (by simp [hx]))]
    rfl

theorem parseWord_plain_sp : ∀ t c tail, ¬ (isSpecial c = true) →
    (∀ x ∈ t, ¬ (isSpecial x = true)) →
    parseWord c (t ++ ' ' :: tail) = some (c :: t, tail) := by
  intro t
  induction t with
  | nil =>
    intro c tail hc _
    obtain ⟨h1, h2, h3, h4, _⟩ := nonspecial_facts c hc
    rw [List.nil_append, parseWord_eq, if_neg h1, if_neg h2, if_neg h3, if_neg (by simp [h4])]
    dsimp only
    rw [parseWord_sp]
    rfl
  | cons d t' ih =>
    intro c tail hc ht
    obtain ⟨h1, h2, h3, h4, _⟩ := nonspecial_facts c hc
    rw [List.cons_append, parseWord_eq, if_neg h1, if_neg h2, if_neg h3, if_neg (by simp [h4])]
    dsimp only
    rw [ih d tail (ht d (by simp)) (fun x hx => ht x (by simp [hx]))]
    rfl

theorem quote_quoted (t : List Char) (h : t = [] ∨ t.any isSpecial = true) :
    quote t = dquote :: (escape t ++ [dquote]) := by
  rcases h with h | h
  · subst h; rfl
  · have h0 : t ≠ [] := by intro he; subst he; simp at h
    rw [quote, if_neg h0, if_pos h]

theorem quote_plain (t : List Char) (h0 : t ≠ []) (h1 : ¬ (t.any isSpecial = true)) :
    quote t = t := by
  rw [quote, if_neg h0, if_neg h1]

theorem not_any_special {t : List Char} (h : ¬ (t.any isSpecial = true)) :
    ∀ x ∈ t, ¬ (isSpecial x = true) := by
  intro x hx hs
  exact h (List.any_eq_true.mpr ⟨x, hx, hs⟩)

theorem joinSpace_cons2 (x y : List Char) (r : List (List Char)) :
    joinSpace (x :: y :: r) = x ++ ' ' :: joinSpace (y :: r) := rfl

theorem skipWs_word (c : Char) (rest : List Char) (h1 : isShWs c = false) (h2 : c ≠ '#') :
    skipWs (c :: rest) = c :: rest := by
  rw [skipWs_cons, if_neg (by simp [h1]), if_neg h2]

/-- One quoted token at the head of the buffer, followed by a space and
arbitrary further text, is tokenized back to the original token with the
further text as the remaining input. -/
theorem split_step_quote (t : List Char) (tail : List Char) :
    split (quote t ++ ' ' :: tail) = (split tail).map (fun ws => t :: ws) := by
  by_cases hq : t = [] ∨ t.any isSpecial = true
  · rw [quote_quoted t hq,
      show (dquote :: (escape t ++ [dquote])) ++ ' ' :: tail
        = dquote :: (escape t ++ dquote :: ' ' :: tail) from by simp,
      split_eq, skipWs_word dquote _ (by decide) (by decide)]
    dsimp only
    rw [parseWord_quoted_sp]
  · push_neg at hq
    obtain ⟨h0, h1⟩ := hq
    rw [quote_plain t h0 h1]
    match t, h0 with
    | c :: t', _ =>
      have hc : ¬ (isSpecial c = true) := not_any_special h1 c (by simp)
      obtain ⟨_, _, _, hw4, hw5⟩ := nonspecial_facts c hc
      rw [show (c :: t') ++ ' ' :: tail = c :: (t' ++ ' ' :: tail) from by simp,
        split_eq, skipWs_word c _ hw4 hw5]
      dsimp only
      rw [parseWord_plain_sp t' c tail hc
        (fun x hx => not_any_special h1 x (by simp [hx]))]

/-- A single quoted token, with nothing following, tokenizes back to the
original token. -/
theorem split_last_quote (t : List Char) : split (quote t) = some [t] := by
  by_cases hq : t = [] ∨ t.any isSpecial = true
  · rw [quote_quoted t hq, split_eq, skipWs_word dquote _ (by decide) (by decide)]
    dsimp only
    rw [parseWord_quoted_nil]
    rfl
  · push_neg at hq
    obtain ⟨h0, h1⟩ := hq
    rw [quote_plain t h0 h1]
    match t, h0 with
    | c :: t', _ =>
      have hc : ¬ (isSpecial c = true) := not_any_special h1 c (by simp)
      obtain ⟨_, _, _, hw4, hw5⟩ := nonspecial_facts c hc
      rw [split_eq, skipWs_word c _ hw4 hw5]
      dsimp only
      rw [parseWord_plain_nil t' c hc
        (fun x hx => not_any_special h1 x (by simp [hx]))]
      rfl

/-- C4: for every sequence of argument strings (spaces and quote
characters included), shell-quoting each argument with `shlex::quote`,
joining with single spaces (as the generated `send` does) and tokenizing
the resulting line with `shlex::split` (as `handle_client` does)
reproduces the original argument sequence exactly. -/
theorem c4_quote_tokenize_roundtrip :
    ∀ args : List (List Char), split (joinSpace (args.map quote)) = some args := by
  intro args
  induction args with
  | nil => rfl
  | cons t ts ih =>
    cases ts with
    | nil =>
      rw [show ([t].map quote) = [quote t] from rfl,
        show joinSpace [quote t] = quote t from rfl, split_last_quote]
    | cons t2 ts2 =>
      rw [show ((t :: t2 :: ts2).map quote) = quote t :: quote t2 :: ts2.map quote from rfl,
        joinSpace_cons2, split_step_quote,
        show (quote t2 :: ts2.map quote) = ((t2 :: ts2).map quote) from rfl, ih]
      rfl

theorem handleClient_nil (reg : List Command) (buf : List Char) (le : Option (List Char)) :
    handleClient reg [] buf le = (lastErrResult le, []) := rfl

theorem handleClient_reset (reg : List Command) (es : List LineEvent) (buf : List Char)
    (le : Option (List Char)) :
    handleClient reg (.reset :: es) buf le = (lastErrResult le, []) := rfl

theorem handleClient_ioError (reg : List Command) (es : List LineEvent) (buf : List Char)
    (le : Option (List Char)) (e : Nat) :
    handleClient reg (.ioError e :: es) buf le = (.ioError e, []) := rfl

theorem handleClient_line (reg : List Command) (es : List LineEvent) (buf : List Char)
    (le : Option (List Char)) (s : List Char) :
    handleClient reg (.line s :: es) buf le =
    match split (buf ++ s) with
    | none => handleClient reg es (buf ++ s ++ [nl]) (some s)
    | some args =>
      match dispatch reg args with
      | .panicked => (.panicked, [])
      | .argParse m => (.argParse m, [])
      | .unknown a => (.unknownCommand a, [])
      | .reply r =>
        match handleClient reg es [] none with
        | (res, rs) => (res, r :: rs) := rfl

theorem handleClient_line_shlex (reg : List Command) (es : List LineEvent) (buf : List Char)
    (le : Option (List Char)) (s : List Char) (h : split (buf ++ s) = none) :
    handleClient reg (.line s :: es) buf le = handleClient reg es (buf ++ s ++ [nl]) (some s) := by
  rw [handleClient_line, h]

theorem handleClient_line_reply (reg : List Command) (es : List LineEvent) (buf : List Char)
    (le : Option (List Char)) (s : List Char) (args : List (List Char)) (r : List Char)
    (h1 : split (buf ++ s) = some args) (h2 : dispatch reg args = .reply r) :
    handleClient reg (.line s :: es) buf le =
      ((handleClient reg es [] none).1, r :: (handleClient reg es [] none).2) := by
  rw [handleClient_line, h1]
  dsimp only
  rw [h2]

theorem handleClient_line_argParse (reg : List Command) (es : List LineEvent) (buf : List Char)
    (le : Option (List Char)) (s : List Char) (args : List (List Char)) (m : List Char)
    (h1 : split (buf ++ s) = some args) (h2 : dispatch reg args = .argParse m) :
    handleClient reg (.line s :: es) buf le = (.argParse m, []) := by
  rw [handleClient_line, h1]
  dsimp only
  rw [h2]

theorem handleClient_line_unknown (reg : List Command) (es : List LineEvent) (buf : List Char)
    (le : Option (List Char)) (s : List Char) (args a : List (List Char))
    (h1 : split (buf ++ s) = some args) (h2 : dispatch reg args = .unknown a) :
    handleClient reg (.line s :: es) buf le = (.unknownCommand a, []) := by
  rw [handleClient_line, h1]
  dsimp only
  rw [h2]

theorem handleClient_line_panic (reg : List Command) (es : List LineEvent) (buf : List Char)
    (le : Option (List Char)) (s : List Char) (args : List (List Char))
    (h1 : split (buf ++ s) = some args) (h2 : dispatch reg args = .panicked) :
    handleClient reg (.line s :: es) buf le = (.panicked, []) := by
  rw [handleClient_line, h1]
  dsimp only
  rw [h2]

theorem dispatch_cons (reg : List Command) (n : List Char) (rest : List (List Char)) :
    dispatch reg (n :: rest) =
    match reg.find? (fun c => c.name == n) with
    | none => .unknown (n :: rest)
    | some c =>
      match runParsers c.parsers rest with
      | .panicked => .panicked
      | .failed m => .argParse m
      | .parsed =>
        match c.handler (rest.take c.parsers.length) with
        | .ok _ => .reply c.name
        | .error m => .reply m := rfl

theorem listenLoop_nil (reg : List Command) : listenLoop reg [] = .running [] := rfl

theorem listenLoop_acceptError (reg : List Command) (e : Nat) (evts : List AcceptEvent) :
    listenLoop reg (.acceptError e :: evts)
      = consNotif (.acceptFailed e) (listenLoop reg evts) := rfl

theorem listenLoop_conn (reg : List Command) (ls : List LineEvent) (evts : List AcceptEvent) :
    listenLoop reg (.conn ls :: evts) =
    match (handleClient reg ls [] none).1 with
    | .ok => listenLoop reg evts
    | .panicked => .panicked []
    | r => consNotif (.connFailed r) (listenLoop reg evts) := rfl

/-! ## Claim theorems -/
/-- C1: the spec requires a blank line (an empty tokenized result) to run
no command, not be an error, and leave the connection reading on; the
code instead evaluates `args[0]` on the empty token vector, which is an
out-of-bounds index panic.  This theorem evaluates the code at the
failing input: the empty line tokenizes to `some []`, the dispatch block
panics on it, and the connection's processing aborts by panic (no
subsequent event is processed). -/
theorem c1_blank_line_panics (reg : List Command) (es : List LineEvent) :
    split ([] : List Char) = some [] ∧ dispatch reg [] = .panicked ∧
    handleClient reg (.line [] :: es) [] none = (.panicked, []) :=
  ⟨rfl, rfl, handleClient_line_panic reg es [] none [] [] rfl rfl⟩

/-- C2 counterexample: the registry holds the command `num` whose single
argument parses only as `1`.  The line `num x` tokenizes, the parser
fails on `x`, and — contrary to the claim — no reply line is written and
the following line `num 1` is never processed: the `?` on
`args[1].parse()` makes `ArgParse` the connection's terminal result. -/
theorem c2_argparse_counterexample :
    handleClient [numCmd] [.line ['n', 'u', 'm', ' ', 'x'], .line ['n', 'u', 'm', ' ', '1']] [] none
      = (.argParse ['x'], []) := by decide

/-- C2 (amended): when a remaining token fails to parse into its declared
argument type, the handler is not invoked (the dispatch result is
independent of the handler) and the `ArgParse` error terminates the
connection as its error result — no reply line is written and subsequent
lines are not processed. -/
theorem c2_argparse_fatal (reg : List Command) (es : List LineEvent) (buf : List Char)
    (le : Option (List Char)) (s : List Char) (args : List (List Char)) (m : List Char)
    (h1 : split (buf ++ s) = some args) (h2 : dispatch reg args = .argParse m) :
    handleClient reg (.line s :: es) buf le = (.argParse m, []) ∧
    ∀ (nm : List Char) (ps : List (List Char → Except (List Char) Unit))
      (h h' : List (List Char) → Except (List Char) Unit) (args' : List (List Char)) (m' : List Char),
      dispatch [⟨nm, ps, h⟩] args' = .argParse m' → dispatch [⟨nm, ps, h'⟩] args' = .argParse m' := by
  refine ⟨handleClient_line_argParse reg es buf le s args m h1 h2, ?_⟩
  intro nm ps h h' args' m' hd
  cases args' with
  | nil => exact absurd hd (by simp [dispatch])
  | cons n rest =>
    rw [dispatch_cons] at hd ⊢
    simp only [List.find?] at hd ⊢
    cases hn : (nm == n) with
    | false =>
      rw [hn] at hd
      dsimp only at hd
      cases hd
    | true =>
      rw [hn] at hd
      dsimp only at hd ⊢
      cases hp : runParsers ps rest with
      | panicked =>
        rw [hp] at hd
        dsimp only at hd
        cases hd
      | failed m2 =>
        rw [hp] at hd
        dsimp only at hd ⊢
        exact hd
      | parsed =>
        rw [hp] at hd
        dsimp only at hd
        cases hh : h (rest.take ps.length) with
        | ok u =>
          rw [hh] at hd
          dsimp only at hd
          cases hd
        | error m2 =>
          rw [hh] at hd
          dsimp only at hd
          cases hd

/-- C2 witness: the amended theorem applied to the concrete registry
`[num]` and the line `num x`. -/
theorem c2_argparse_fatal_witness :
    handleClient [numCmd] [.line ['n', 'u', 'm', ' ', 'x']] [] none = (.argParse ['x'], []) :=
  (c2_argparse_fatal [numCmd] [] [] none ['n', 'u', 'm', ' ', 'x'] [['n', 'u', 'm'], ['x']] ['x']
    (by decide) (by decide)).1

/-- C5: a successfully tokenized line whose first token matches no
registered command name ends the connection: the catch-all dispatch arm
returns `UnknownCommand` carrying the full token list, `handle_client`
returns it as the connection's terminal result without writing any reply
line or processing further lines, and the listener surfaces it to the
fault notifier. -/
theorem c5_unknown_command_terminates :
    (∀ (reg : List Command) (n : List Char) (rest : List (List Char)),
      reg.find? (fun c => c.name == n) = none → dispatch reg (n :: rest) = .unknown (n :: rest)) ∧
    (∀ (reg : List Command) (es : List LineEvent) (buf : List Char) (le : Option (List Char))
      (s : List Char) (args : List (List Char)),
      split (buf ++ s) = some args → dispatch reg args = .unknown args →
      handleClient reg (.line s :: es) buf le = (.unknownCommand args, [])) ∧
    (∀ (reg : List Command) (ls : List LineEvent) (evts : List AcceptEvent)
      (args : List (List Char)),
      (handleClient reg ls [] none).1 = .unknownCommand args →
      listenLoop reg (.conn ls :: evts)
        = consNotif (.connFailed (.unknownCommand args)) (listenLoop reg evts)) := by
  refine ⟨?_, ?_, ?_⟩
  · intro reg n rest h
    rw [dispatch_cons, h]
  · intro reg es buf le s args h1 h2
    exact handleClient_line_unknown reg es buf le s args args h1 h2
  · intro reg ls evts args h
    rw [listenLoop_conn, h]

/-- C5 witness: sending `unknown-cmd` to a listener whose registry holds
only `num` terminates that connection with
`UnknownCommand(["unknown-cmd"])`, reported to the fault notifier. -/
theorem c5_unknown_command_witness :
    handleClient [numCmd] [.line ['u', 'n', 'k', 'n', 'o', 'w', 'n', '-', 'c', 'm', 'd']] [] none
      = (.unknownCommand [['u', 'n', 'k', 'n', 'o', 'w', 'n', '-', 'c', 'm', 'd']], []) ∧
    listenLoop [numCmd] [.conn [.line ['u', 'n', 'k', 'n', 'o', 'w', 'n', '-', 'c', 'm', 'd']]]
      = .running [.connFailed
          (.unknownCommand [['u', 'n', 'k', 'n', 'o', 'w', 'n', '-', 'c', 'm', 'd']])] := by
  constructor
  · exact c5_unknown_command_terminates.2.1 [numCmd] [] [] none
      ['u', 'n', 'k', 'n', 'o', 'w', 'n', '-', 'c', 'm', 'd']
      [['u', 'n', 'k', 'n', 'o', 'w', 'n', '-', 'c', 'm', 'd']] (by decide) (by decide)
  · exact c5_unknown_command_terminates.2.2 [numCmd]
      [.line ['u', 'n', 'k', 'n', 'o', 'w', 'n', '-', 'c', 'm', 'd']] []
      [['u', 'n', 'k', 'n', 'o', 'w', 'n', '-', 'c', 'm', 'd']] (by decide)

/-- C6: a tokenize failure preserves the buffered text plus a trailing
newline, records the Shlex error and dispatches nothing, so a later line
can complete a quoted argument; concretely, `echo 'hello` followed by
`world'` dispatches the single command `echo` with the one argument
`hello\nworld` (the probe handler replies with the argument it received),
and the buffer is cleared again only on the successful tokenization. -/
theorem c6_unterminated_quote_buffering :
    (∀ (reg : List Command) (es : List LineEvent) (buf s : List Char) (le : Option (List Char)),
      split (buf ++ s) = none →
      handleClient reg (.line s :: es) buf le = handleClient reg es (buf ++ s ++ [nl]) (some s)) ∧
    split ['e', 'c', 'h', 'o', ' ', squote, 'h', 'e', 'l', 'l', 'o'] = none ∧
    split (['e', 'c', 'h', 'o', ' ', squote, 'h', 'e', 'l', 'l', 'o'] ++ [nl]
        ++ ['w', 'o', 'r', 'l', 'd', squote])
      = some [['e', 'c', 'h', 'o'], ['h', 'e', 'l', 'l', 'o', nl, 'w', 'o', 'r', 'l', 'd']] ∧
    handleClient [echoProbe]
        [.line ['e', 'c', 'h', 'o', ' ', squote, 'h', 'e', 'l', 'l', 'o'],
          .line ['w', 'o', 'r', 'l', 'd', squote]] [] none
      = (.ok, [['h', 'e', 'l', 'l', 'o', nl, 'w', 'o', 'r', 'l', 'd']]) := by
  refine ⟨?_, by decide, by decide, by decide⟩
  intro reg es buf s le hsp
  exact handleClient_line_shlex reg es buf le s hsp

/-- C6 witness: the buffering step applied at a concrete unterminated
quote. -/
theorem c6_unterminated_quote_witness :
    handleClient [] [LineEvent.line [squote]] [] none
      = handleClient [] [] ([] ++ [squote] ++ [nl]) (some [squote]) :=
  c6_unterminated_quote_buffering.1 [] [] [] [squote] none (by decide)

/-- C9 counterexample: a connection whose only line is an unterminated
quote and which is then reset does not close silently — the recorded
Shlex error is the connection's result, and the listener reports it to
the fault notifier, contrary to the claim that a reset connection
reports nothing. -/
theorem c9_reset_counterexample :
    handleClient [] [.line [squote], .reset] [] none = (.shlexError [squote], []) ∧
    listenLoop [] [.conn [.line [squote], .reset]]
      = .running [.connFailed (.shlexError [squote])] := by
  exact ⟨by decide, by decide⟩

/-- C9 (amended): a `ConnectionReset` on a line read stops the read loop
and the connection terminates with the recorded `last_error` as its
result — `Ok` (so nothing is reported to the fault notifier) when the
most recent tokenization succeeded or no line was processed, the
recorded Shlex error otherwise; any other I/O error on a line read is
fatal and becomes the connection's terminal error result. -/
theorem c9_reset_last_error :
    (∀ (reg : List Command) (es : List LineEvent) (buf : List Char) (le : Option (List Char)),
      handleClient reg (.reset :: es) buf le = (lastErrResult le, [])) ∧
    lastErrResult none = .ok ∧
    (∀ (reg : List Command) (es : List LineEvent) (buf : List Char) (le : Option (List Char))
      (e : Nat), handleClient reg (.ioError e :: es) buf le = (.ioError e, [])) ∧
    (∀ (reg : List Command) (ls : List LineEvent) (evts : List AcceptEvent),
      (handleClient reg ls [] none).1 = .ok →
      listenLoop reg (.conn ls :: evts) = listenLoop reg evts) := by
  refine ⟨fun reg es buf le => handleClient_reset reg es buf le, rfl,
    fun reg es buf le e => handleClient_ioError reg es buf le e, ?_⟩
  intro reg ls evts h
  rw [listenLoop_conn, h]

/-- C9 witness: a clean reset (no pending tokenize error) yields no
notification and the listener goes on. -/
theorem c9_reset_witness : listenLoop [] [.conn [.reset]] = listenLoop [] [] :=
  c9_reset_last_error.2.2.2 [] [.reset] [] (by decide)

/-- C10: the recorded `last_error` is set to the tokenize error exactly
when the most recent line failed to tokenize (first conjunct), is reset
to `Ok` by every subsequent successful tokenization (second conjunct:
the continuation runs with `last_error = Ok(())` and a cleared buffer),
is what the connection surfaces when its line stream ends, by
end-of-stream or reset (third conjunct), and consequently a tokenize
failure followed by a successfully tokenized line is not reported at
close (fourth conjunct). -/
theorem c10_last_error_invariant :
    (∀ (reg : List Command) (es : List LineEvent) (buf s : List Char) (le : Option (List Char)),
      split (buf ++ s) = none →
      handleClient reg (.line s :: es) buf le = handleClient reg es (buf ++ s ++ [nl]) (some s)) ∧
    (∀ (reg : List Command) (es : List LineEvent) (buf s : List Char) (le : Option (List Char))
      (args : List (List Char)) (r : List Char),
      split (buf ++ s) = some args → dispatch reg args = .reply r →
      handleClient reg (.line s :: es) buf le
        = ((handleClient reg es [] none).1, r :: (handleClient reg es [] none).2)) ∧
    (∀ (reg : List Command) (buf : List Char) (le : Option (List Char)),
      handleClient reg [] buf le = (lastErrResult le, []) ∧
      ∀ es, handleClient reg (.reset :: es) buf le = (lastErrResult le, [])) ∧
    (∀ (reg : List Command) (buf s s2 : List Char) (le : Option (List Char))
      (args : List (List Char)) (r : List Char),
      split (buf ++ s) = none → split (buf ++ s ++ [nl] ++ s2) = some args →
      dispatch reg args = .reply r →
      handleClient reg [.line s, .line s2] buf le = (.ok, [r])) := by
  refine ⟨?_, ?_, ?_, ?_⟩
  · intro reg es buf s le hsp
    exact handleClient_line_shlex reg es buf le s hsp
  · intro reg es buf s le args r h1 h2
    exact handleClient_line_reply reg es buf le s args r h1 h2
  · intro reg buf le
    exact ⟨rfl, fun es => rfl⟩
  · intro reg buf s s2 le args r h1 h2 h3
    rw [handleClient_line_shlex reg [.line s2] buf le s h1,
      handleClient_line_reply reg [] (buf ++ s ++ [nl]) (some s) s2 args r h2 h3]
    rfl

/-- C10 witness: an unterminated quote followed by its completion ends
the connection (at end of stream) with `Ok` and exactly the one reply. -/
theorem c10_last_error_witness :
    handleClient [echoProbe]
        [.line ['e', 'c', 'h', 'o', ' ', squote, 'a'], .line ['b', squote]] [] none
      = (.ok, [['a', nl, 'b']]) :=
  c10_last_error_invariant.2.2.2 [echoProbe] [] ['e', 'c', 'h', 'o', ' ', squote, 'a']
    ['b', squote] none [['e', 'c', 'h', 'o'], ['a', nl, 'b']] ['a', nl, 'b']
    (by decide) (by decide) (by decide)

theorem faultsOf_conn (reg : List Command) (ls : List LineEvent) (evts : List AcceptEvent) :
    faultsOf reg (.conn ls :: evts) =
    match (handleClient reg ls [] none).1 with
    | .ok => faultsOf reg evts
    | r => .connFailed r :: faultsOf reg evts := rfl

/-- C8 counterexample: the listener does not terminate only on a bind
failure.  The bind succeeds, but the first connection sends a blank line,
`handle_client` panics on `args[0]` (the C1 bug), and — because the
handler is awaited inline, not spawned — the panic crashes the listen
task: the following accept failure is never observed and nothing is
notified.  The same run without the panicking connection keeps the
listener running. -/
theorem c8_panic_counterexample :
    listen [] (.ok ()) [.conn [.line []], .acceptError 7] = .panicked [] ∧
    listen [] (.ok ()) [.acceptError 7] = .running [.acceptFailed 7] := by
  exact ⟨by decide, by decide⟩

/-- C8 (amended): a bind failure is propagated to the caller of `listen`
(first conjunct).  Under the accept loop, every accept failure is
reported to the fault notifier and the loop continues, whatever follows
(second conjunct), and every connection handler that terminates with an
error — as opposed to panicking — is reported to the fault notifier and
the loop continues (third conjunct); in a run whose connections do not
hit the `handle_client` panic of C1, the listener consequently processes
every event and is still accepting afterwards, with exactly the faults
notified in order (fourth conjunct). -/
theorem c8_listener_isolation :
    (∀ (reg : List Command) (evts : List AcceptEvent) (e : Nat),
      listen reg (.error e) evts = .bindFailed e) ∧
    (∀ (reg : List Command) (evts : List AcceptEvent) (e : Nat),
      listenLoop reg (.acceptError e :: evts)
        = consNotif (.acceptFailed e) (listenLoop reg evts)) ∧
    (∀ (reg : List Command) (ls : List LineEvent) (evts : List AcceptEvent) (r : ConnResult),
      (handleClient reg ls [] none).1 = r → r ≠ .ok → r ≠ .panicked →
      listenLoop reg (.conn ls :: evts) = consNotif (.connFailed r) (listenLoop reg evts)) ∧
    (∀ (reg : List Command) (evts : List AcceptEvent),
      (∀ ls, AcceptEvent.conn ls ∈ evts → (handleClient reg ls [] none).1 ≠ .panicked) →
      listen reg (.ok ()) evts = .running (faultsOf reg evts)) := by
  refine ⟨?_, ?_, ?_, ?_⟩
  · intro reg evts e
    rfl
  · intro reg evts e
    exact listenLoop_acceptError reg e evts
  · intro reg ls evts r hr hok hpan
    rw [listenLoop_conn, hr]
    cases r with
    | ok => exact absurd rfl hok
    | panicked => exact absurd rfl hpan
    | shlexError l => rfl
    | ioError e => rfl
    | unknownCommand a => rfl
    | argParse m => rfl
  · intro reg evts
    induction evts with
    | nil => intro h; rfl
    | cons ev evts ih =>
      intro h
      have htail : ∀ ls, AcceptEvent.conn ls ∈ evts →
          (handleClient reg ls [] none).1 ≠ .panicked :=
        fun ls hm => h ls (List.mem_cons_of_mem _ hm)
      have htl : listenLoop reg evts = .running (faultsOf reg evts) := ih htail
      cases ev with
      | acceptError e =>
        show listenLoop reg (.acceptError e :: evts) = _
        rw [listenLoop_acceptError, htl]
        rfl
      | conn ls =>
        have hnp := h ls (by simp)
        show listenLoop reg (.conn ls :: evts) = _
        rw [listenLoop_conn]
        cases hr : (handleClient reg ls [] none).1 with
        | ok =>
          dsimp only
          rw [faultsOf_conn, hr]
          dsimp only
          exact htl
        | panicked => exact absurd hr hnp
        | shlexError l =>
          dsimp only
          rw [faultsOf_conn, hr, htl]
          rfl
        | ioError e =>
          dsimp only
          rw [faultsOf_conn, hr, htl]
          rfl
        | unknownCommand a =>
          dsimp only
          rw [faultsOf_conn, hr, htl]
          rfl
        | argParse m =>
          dsimp only
          rw [faultsOf_conn, hr, htl]
          rfl

/-- C8 witness: the amended theorem applied concretely — a connection
dying with an I/O error is reported and the loop continues; a failed
accept followed by that connection leaves the listener running with both
faults notified in order; a failed bind is propagated. -/
theorem c8_listener_isolation_witness :
    listenLoop [] [.conn [.ioError 3]]
      = consNotif (.connFailed (.ioError 3)) (listenLoop [] []) ∧
    listen [] (.ok ()) [.acceptError 7, .conn [.ioError 3]]
      = .running [.acceptFailed 7, .connFailed (.ioError 3)] ∧
    listen [] (.error 9) [] = .bindFailed 9 := by
  refine ⟨?_, ?_, ?_⟩
  · exact c8_listener_isolation.2.2.1 [] [.ioError 3] [] (.ioError 3)
      (by decide) (by decide) (by decide)
  · have h := c8_listener_isolation.2.2.2 [] [.acceptError 7, .conn [.ioError 3]] (by
      intro ls hm
      simp only [List.mem_cons, List.not_mem_nil, or_false] at hm
      rcases hm with hm | hm
      · simp at hm
      · simp only [AcceptEvent.conn.injEq] at hm
        subst hm
        decide)
    exact h
  · exact c8_listener_isolation.1 [] [] 9

theorem readLine_through_nl : ∀ reply rest : List Char, nl ∉ reply →
    readLine (reply ++ nl :: rest) = reply ++ [nl] := by
  intro reply
  induction reply with
  | nil =>
    intro rest h
    simp [readLine]
  | cons c cs ih =>
    intro rest h
    have hc : c ≠ nl := by
      intro he
      exact h (by simp [he])
    rw [List.cons_append,
      show readLine (c :: (cs ++ nl :: rest))
        = if c = nl then [c] else c :: readLine (cs ++ nl :: rest) from rfl,
      if_neg hc, ih rest (fun hm => h (by simp [hm]))]
    rfl

theorem readLine_no_nl : ∀ reply : List Char, nl ∉ reply → readLine reply = reply := by
  intro reply
  induction reply with
  | nil => intro h; rfl
  | cons c cs ih =>
    intro h
    have hc : c ≠ nl := by
      intro he
      exact h (by simp [he])
    rw [show readLine (c :: cs) = if c = nl then [c] else c :: readLine cs from rfl,
      if_neg hc, ih (fun hm => h (by simp [hm]))]

/-- C7: `send` writes the shell-quoted, space-joined arguments followed
by one newline (first conjunct, the request line); reading the reply
consumes exactly one line — everything after the first newline in the
stream is ignored — and the returned line is the reply with its trailing
newline removed (second conjunct); a reply stream containing no newline
is rejected as `MissingNewline` (third conjunct). -/
theorem c7_send_contract :
    (∀ args : List (List Char), sendRequest args = joinSpace (args.map quote) ++ [nl]) ∧
    (∀ reply rest : List Char, nl ∉ reply → sendReceive (reply ++ nl :: rest) = .ok reply) ∧
    (∀ reply : List Char, nl ∉ reply → sendReceive reply = .missingNewline) := by
  refine ⟨fun args => rfl, ?_, ?_⟩
  · intro reply rest h
    rw [show sendReceive (reply ++ nl :: rest)
        = (if (readLine (reply ++ nl :: rest)).getLast? = some nl
          then .ok (readLine (reply ++ nl :: rest)).dropLast else .missingNewline) from rfl,
      readLine_through_nl reply rest h]
    rw [if_pos (by simp : (reply ++ [nl]).getLast? = some nl)]
    simp
  · intro reply h
    rw [show sendReceive reply
        = (if (readLine reply).getLast? = some nl
          then SendResult.ok (readLine reply).dropLast else .missingNewline) from rfl,
      readLine_no_nl reply h]
    cases hr : reply.getLast? with
    | none => rw [if_neg (by simp [hr])]
    | some c =>
      have hc : ¬ (c = nl) := by
        intro he
        subst he
        exact h (List.mem_of_getLast?_eq_some hr)
      rw [if_neg (by simp [hr, hc])]

/-- C7 witness: the contract applied at the concrete reply `pong`. -/
theorem c7_send_contract_witness :
    sendReceive (['p', 'o', 'n', 'g'] ++ nl :: ['x']) = .ok ['p', 'o', 'n', 'g'] ∧
    sendReceive ['p', 'o', 'n', 'g'] = .missingNewline :=
  ⟨c7_send_contract.2.1 ['p', 'o', 'n', 'g'] ['x'] (by decide),
    c7_send_contract.2.2 ['p', 'o', 'n', 'g'] (by decide)⟩

theorem rwReachable_inv {T : Type} (v : T) (s : RwCell T) (h : RwReachable v s) :
    (s.notified = true → s.data = .Ready v) ∧ (∀ w, s.data = .Ready w → w = v) := by
  induction h with
  | init => exact ⟨(fun hn => nomatch hn), (fun w hw => nomatch hw)⟩
  | step hr hs ih =>
    cases hs with
    | fill =>
      exact ⟨(fun hn => nomatch hn), (fun w hw => by injection hw with h; exact h.symm)⟩
    | notify =>
      exact ⟨(fun _ => rfl), (fun w hw => by injection hw with h; exact h.symm)⟩

/-- C3: for every reachable state of an `RwFuture` and its producer: if
the first check under the lock sees `Ready`, `read` (and `write`)
returns access to the stored value immediately, without suspending, and
the stored value is the produced one — in particular a caller arriving
after the transition does not block; if the first check sees `Pending`,
the caller subscribes and suspends, and in any reachable state in which
the notification has been sent — the only states in which the suspended
caller resumes — the cell is necessarily `Ready`, so the re-check
returns access to the produced value: neither the
`unreachable!("RwFuture should be ready after notification")` branch nor
`unwrap`'s `panic!("not ready")` is hit (the result is not `none`). -/
theorem c3_rwfuture_ready_gate {T : Type} (v : T) (s s2 : RwCell T)
    (h1 : RwReachable v s) (h2 : RwReachable v s2) :
    (∀ w, s.data = .Ready w → w = v ∧
      readAccess s.data s2.data = some (false, w) ∧
      writeAccess s.data s2.data = some (false, w)) ∧
    (s.data = .Pending → s2.notified = true →
      readAccess s.data s2.data = some (true, v) ∧
      writeAccess s.data s2.data = some (true, v)) := by
  constructor
  · intro w hw
    refine ⟨(rwReachable_inv v s h1).2 w hw, ?_, ?_⟩ <;> rw [hw] <;> rfl
  · intro hp hn
    have hd2 : s2.data = .Ready v := (rwReachable_inv v s2 h2).1 hn
    rw [hp, hd2]
    exact ⟨rfl, rfl⟩

/-- C3 witness: the theorem applied to the concrete producer value `5`,
at the ready-and-notified state (immediate access) and at the
pending-then-notified pair of states (suspend, then access after the
notification). -/
theorem c3_rwfuture_ready_gate_witness :
    readAccess (RwFutureData.Ready (5 : Nat)) (RwFutureData.Ready 5) = some (false, 5) ∧
    readAccess (RwFutureData.Pending : RwFutureData Nat) (RwFutureData.Ready 5)
      = some (true, 5) ∧
    writeAccess (RwFutureData.Pending : RwFutureData Nat) (RwFutureData.Ready 5)
      = some (true, 5) := by
  have hready : RwReachable (5 : Nat) ⟨.Ready 5, true⟩ :=
    RwReachable.step (RwReachable.step RwReachable.init RwStep.fill) RwStep.notify
  have hinit : RwReachable (5 : Nat) ⟨.Pending, false⟩ := RwReachable.init
  refine ⟨?_, ?_, ?_⟩
  · exact ((c3_rwfuture_ready_gate 5 ⟨.Ready 5, true⟩ ⟨.Ready 5, true⟩ hready hready).1 5
      rfl).2.1
  · exact ((c3_rwfuture_ready_gate 5 ⟨.Pending, false⟩ ⟨.Ready 5, true⟩ hinit hready).2
      rfl rfl).1
  · exact ((c3_rwfuture_ready_gate 5 ⟨.Pending, false⟩ ⟨.Ready 5, true⟩ hinit hready).2
      rfl rfl).2
